import Mathlib

/-!
Verification development for the `plugin-vercel-ai-gateway` repository.

The definitions below are shallow embeddings of the plugin's TypeScript
source.  Strings from the JavaScript world are modelled as `List Char`
(JavaScript string indices and slices act on the character sequence), and
the built-in `JSON.parse` is modelled by an executable recursive-descent
parser over the same character lists, following the JSON grammar that
`JSON.parse` implements.  Asynchronous transport calls are modelled by
passing their observable outcome as an explicit argument.
-/

namespace VercelGateway

/-- JSON whitespace characters (the set skipped by `JSON.parse`). -/
def isJsonWs (c : Char) : Bool :=
  c = ' ' || c = '\t' || c = '\n' || c = '\r'

/-- Whitespace accepted by JavaScript `String.prototype.trim` and
`parseInt` (restricted to its ASCII part, which is all the plugin's
configuration values use). -/
def isJsWs (c : Char) : Bool :=
  c = ' ' || c = '\t' || c = '\n' || c = '\r' || c = Char.ofNat 11 || c = Char.ofNat 12

/-- Skip leading JSON whitespace. -/
def skipWs (s : List Char) : List Char := s.dropWhile isJsonWs

/-- Drop trailing JavaScript whitespace (the right half of `trim`). -/
def dropTrailingWs (s : List Char) : List Char :=
  (s.reverse.dropWhile isJsWs).reverse

/-- JavaScript `String.prototype.trim` on character lists. -/
def jsTrim (s : List Char) : List Char := dropTrailingWs (s.dropWhile isJsWs)

/-- JavaScript `String.prototype.startsWith` on character lists. -/
def startsWithL (p s : List Char) : Bool := decide (s.take p.length = p)

/-- JavaScript `String.prototype.endsWith` on character lists. -/
def endsWithL (p s : List Char) : Bool :=
  decide (p.length ≤ s.length ∧ s.drop (s.length - p.length) = p)

/-- JSON values as produced by `JSON.parse`.  Number lexemes are kept
verbatim: the plugin never computes with a JSON number, so only the
validity of the numeral and its identity matter. -/
inductive Json where
  | null : Json
  | bool (b : Bool) : Json
  | num (lexeme : List Char) : Json
  | str (s : List Char) : Json
  | arr (elems : List Json) : Json
  | obj (members : List (List Char × Json)) : Json

/-- Value of a hexadecimal digit, as in a `\uXXXX` escape. -/
def hexVal (c : Char) : Option Nat :=
  if '0' ≤ c && c ≤ '9' then some (c.toNat - 48)
  else if 'a' ≤ c && c ≤ 'f' then some (c.toNat - 87)
  else if 'A' ≤ c && c ≤ 'F' then some (c.toNat - 55)
  else none

/-- Four hexadecimal digits and their value, as in a `\uXXXX` escape. -/
def readHex4 : List Char → Option (Nat × List Char)
  | h1 :: h2 :: h3 :: h4 :: r =>
    match hexVal h1, hexVal h2, hexVal h3, hexVal h4 with
    | some a, some b, some c, some d => some (((a * 16 + b) * 16 + c) * 16 + d, r)
    | _, _, _, _ => none
  | _ => none

/-- Decode one `\u` escape (the text after `\u`), returning the decoded
characters and the rest of the input.  Surrogate pairs written as two `\u`
escapes are combined into one scalar; a lone surrogate, which Lean's
scalar-valued `Char` cannot hold, is mapped through `Char.ofNat`. -/
def unescapeU (s : List Char) : Option (List Char × List Char) :=
  match readHex4 s with
  | none => none
  | some (v, r) =>
    if 0xD800 ≤ v ∧ v ≤ 0xDBFF then
      match r with
      | '\\' :: 'u' :: r1 =>
        match readHex4 r1 with
        | some (w, r2) =>
          if 0xDC00 ≤ w ∧ w ≤ 0xDFFF then
            some ([Char.ofNat (0x10000 + (v - 0xD800) * 0x400 + (w - 0xDC00))], r2)
          else some ([Char.ofNat v], r)
        | none => some ([Char.ofNat v], r)
      | _ => some ([Char.ofNat v], r)
    else some ([Char.ofNat v], r)

/-- Decode one escape sequence of a JSON string (the text after the
backslash). -/
def unescape : List Char → Option (List Char × List Char)
  | [] => none
  | e :: r =>
    if e = '"' then some (['"'], r)
    else if e = '\\' then some (['\\'], r)
    else if e = '/' then some (['/'], r)
    else if e = 'b' then some ([Char.ofNat 8], r)
    else if e = 'f' then some ([Char.ofNat 12], r)
    else if e = 'n' then some (['\n'], r)
    else if e = 'r' then some (['\r'], r)
    else if e = 't' then some (['\t'], r)
    else if e = 'u' then unescapeU r
    else none

/-- One or more decimal digits: the longest digit prefix and the rest. -/
def lexDigits1 (s : List Char) : Option (List Char × List Char) :=
  if (s.takeWhile Char.isDigit).isEmpty then none
  else some (s.takeWhile Char.isDigit, s.dropWhile Char.isDigit)

/-- The integer part of a JSON number: `0` or a nonzero digit followed by
more digits (a leading zero cannot be followed by digits). -/
def lexInt : List Char → Option (List Char × List Char)
  | [] => none
  | c :: cs =>
    if c = '0' then some (['0'], cs)
    else if c.isDigit then some (c :: cs.takeWhile Char.isDigit, cs.dropWhile Char.isDigit)
    else none

/-- The optional fraction part `.digits`; consumes nothing when absent or
ill-formed (an ill-formed fraction then fails at the enclosing level, as
`JSON.parse` does). -/
def lexFrac (s : List Char) : List Char × List Char :=
  match s with
  | '.' :: cs =>
    if (cs.takeWhile Char.isDigit).isEmpty then ([], s)
    else ('.' :: cs.takeWhile Char.isDigit, cs.dropWhile Char.isDigit)
  | _ => ([], s)

/-- The optional exponent part `[eE][+-]?digits`; consumes nothing when
absent or ill-formed. -/
def lexExp (s : List Char) : List Char × List Char :=
  match s with
  | e :: rest =>
    if e = 'e' ∨ e = 'E' then
      match rest with
      | sgn :: rest2 =>
        if sgn = '+' ∨ sgn = '-' then
          match lexDigits1 rest2 with
          | some (ds, r) => (e :: sgn :: ds, r)
          | none => ([], s)
        else
          match lexDigits1 rest with
          | some (ds, r) => (e :: ds, r)
          | none => ([], s)
      | [] => ([], s)
    else ([], s)
  | [] => ([], s)

/-- A JSON number lexeme without the sign: integer, fraction, exponent. -/
def lexNumBody (s : List Char) : Option (List Char × List Char) :=
  match lexInt s with
  | none => none
  | some (i, r1) =>
    let fr := lexFrac r1
    let ex := lexExp fr.2
    some (i ++ fr.1 ++ ex.1, ex.2)

/-- A JSON number lexeme with its optional leading minus sign. -/
def lexNumber : List Char → Option (List Char × List Char)
  | [] => none
  | c :: cs =>
    if c = '-' then
      match lexNumBody cs with
      | some (l, r) => some ('-' :: l, r)
      | none => none
    else lexNumBody (c :: cs)

mutual

/-- Parse one JSON value at the head of the input (whitespace already
skipped), returning the value and the unconsumed rest.  Fuel decreases on
every recursive call; `parseJson` supplies enough for any input. -/
def parseValue : Nat → List Char → Option (Json × List Char)
  | 0, _ => none
  | fuel + 1, s =>
    match s with
    | [] => none
    | c :: r =>
      if c = 'n' then
        if r.take 3 = ['u', 'l', 'l'] then some (.null, r.drop 3) else none
      else if c = 't' then
        if r.take 3 = ['r', 'u', 'e'] then some (.bool true, r.drop 3) else none
      else if c = 'f' then
        if r.take 4 = ['a', 'l', 's', 'e'] then some (.bool false, r.drop 4) else none
      else if c = '"' then
        match parseStringBody fuel r with
        | some (cs, r2) => some (.str cs, r2)
        | none => none
      else if c = '[' then
        if (skipWs r).take 1 = [']'] then some (.arr [], (skipWs r).drop 1)
        else
          match parseElems fuel (skipWs r) with
          | some (es, r2) => some (.arr es, r2)
          | none => none
      else if c = '{' then
        if (skipWs r).take 1 = ['}'] then some (.obj [], (skipWs r).drop 1)
        else
          match parseMembers fuel (skipWs r) with
          | some (ms, r2) => some (.obj ms, r2)
          | none => none
      else
        match lexNumber s with
        | some (l, r2) => some (.num l, r2)
        | none => none

/-- Parse a comma-separated list of array elements up to and including the
closing bracket. -/
def parseElems : Nat → List Char → Option (List Json × List Char)
  | 0, _ => none
  | fuel + 1, s =>
    match parseValue fuel (skipWs s) with
    | none => none
    | some (j, r) =>
      if (skipWs r).take 1 = [','] then
        match parseElems fuel ((skipWs r).drop 1) with
        | some (es, r3) => some (j :: es, r3)
        | none => none
      else if (skipWs r).take 1 = [']'] then some ([j], (skipWs r).drop 1)
      else none

/-- Parse a comma-separated list of object members up to and including the
closing brace. -/
def parseMembers : Nat → List Char → Option (List (List Char × Json) × List Char)
  | 0, _ => none
  | fuel + 1, s =>
    if (skipWs s).take 1 = ['"'] then
      match parseStringBody fuel ((skipWs s).drop 1) with
      | none => none
      | some (key, r1) =>
        if (skipWs r1).take 1 = [':'] then
          match parseValue fuel (skipWs ((skipWs r1).drop 1)) with
          | none => none
          | some (j, r3) =>
            if (skipWs r3).take 1 = [','] then
              match parseMembers fuel ((skipWs r3).drop 1) with
              | some (ms, r5) => some ((key, j) :: ms, r5)
              | none => none
            else if (skipWs r3).take 1 = ['}'] then some ([(key, j)], (skipWs r3).drop 1)
            else none
        else none
    else none

/-- Parse the body of a JSON string after the opening quote, up to and
including the closing quote.  Raw control characters are rejected, as in
`JSON.parse`. -/
def parseStringBody : Nat → List Char → Option (List Char × List Char)
  | 0, _ => none
  | fuel + 1, s =>
    match s with
    | [] => none
    | c :: r =>
      if c = '"' then some ([], r)
      else if c = '\\' then
        match unescape r with
        | none => none
        | some (cs, r1) =>
          match parseStringBody fuel r1 with
          | none => none
          | some (out, r2) => some (cs ++ out, r2)
      else if c.toNat < 32 then none
      else
        match parseStringBody fuel r with
        | none => none
        | some (out, r2) => some (c :: out, r2)

end

/-- Model of `JSON.parse`: leading whitespace, one value, trailing
whitespace, nothing else.  `none` models the thrown `SyntaxError`. -/
def parseJson (s : List Char) : Option Json :=
  let s1 := skipWs s
  match parseValue (2 * s1.length + 8) s1 with
  | some (j, rest) => if skipWs rest = [] then some j else none
  | none => none

/-- Property lookup on a parsed JSON object.  `JSON.parse` keeps the last
of several members with the same name, hence the reversed search. -/
def jsonField (j : Json) (key : List Char) : Option Json :=
  match j with
  | .obj ms => (ms.reverse.find? (fun m => m.1 == key)).map (fun m => m.2)
  | _ => none

/-- `choices?.[0]` on a parsed chunk, following the response shape the
client declares (`choices` an array). -/
def jsonHead : Json → Option Json
  | .arr (x :: _) => some x
  | _ => none

/-- `chunk.choices?.[0]?.delta?.content` on a parsed streaming chunk,
following the response type declared in `streamText` (`content` a
string). -/
def deltaContent (j : Json) : Option (List Char) :=
  match jsonField j ("choices".toList) with
  | none => none
  | some choices =>
    match jsonHead choices with
    | none => none
    | some c0 =>
      match jsonField c0 ("delta".toList) with
      | none => none
      | some delta =>
        match jsonField delta ("content".toList) with
        | some (.str s) => some s
        | _ => none

/-- One data payload of the stream: `JSON.parse` in a `try`/`catch` (a
parse failure yields nothing), content extraction, and the `if (content)`
truthiness test (the empty string is falsy). -/
def parseDeltaContent (data : List Char) : Option (List Char) :=
  match parseJson data with
  | none => none
  | some j =>
    match deltaContent j with
    | some s => if s = [] then none else some s
    | none => none

/-! ### The streaming chat-completion parser (`GatewayClient.streamText`)

`buffer += decode(value); const lines = buffer.split("\n");
buffer = lines.pop() || "";` splits the accumulated text at newlines,
keeps the text after the last newline as the new buffer, and processes the
complete lines: lines without the `data: ` marker are skipped, the
`[DONE]` sentinel returns from the generator, and other payloads go
through `parseDeltaContent`.  Chunks are the successive results of
`decoder.decode` (byte-level UTF-8 reassembly is the `TextDecoder`'s job
and is modelled at the decoded-character level). -/

/-- `buffer.split("\n")` followed by `buffer = lines.pop() || ""`:
the complete (newline-terminated) lines and the leftover partial line. -/
def splitLines : List Char → List (List Char) × List Char
  | [] => ([], [])
  | c :: cs =>
    if c = '\n' then
      ([] :: (splitLines cs).1, (splitLines cs).2)
    else
      match splitLines cs with
      | ([], r) => ([], c :: r)
      | (l :: ls, r) => ((c :: l) :: ls, r)

/-- The SSE data-line marker `"data: "`. -/
def dataMarker : List Char := "data: ".toList

/-- The sentinel payload `"[DONE]"`. -/
def doneData : List Char := "[DONE]".toList

/-- Process one batch of complete lines: the fragments yielded and whether
the generator returned (on the `[DONE]` sentinel). -/
def processLines : List (List Char) → List (List Char) × Bool
  | [] => ([], false)
  | line :: rest =>
    if ¬ startsWithL dataMarker line then processLines rest
    else
      let data := line.drop 6
      if data = doneData then ([], true)
      else
        match parseDeltaContent data with
        | some c => ((c :: (processLines rest).1), (processLines rest).2)
        | none => processLines rest

/-- The read loop of `streamText`, carrying the partial-line buffer.  When
the reader is exhausted the loop breaks and the remaining buffer is
discarded; when the sentinel is seen the generator returns and no further
chunk is read. -/
def streamTextGo : List Char → List (List Char) → List (List Char)
  | _, [] => []
  | buf, c :: cs =>
    let sp := splitLines (buf ++ c)
    let pr := processLines sp.1
    if pr.2 then pr.1 else pr.1 ++ streamTextGo sp.2 cs

/-- The sequence of content fragments yielded by
`GatewayClient.streamText` when the response body delivers the given
chunks. -/
def streamText (chunks : List (List Char)) : List (List Char) :=
  streamTextGo [] chunks

/-- A sequence of newline-terminated lines as one block of stream text. -/
def unlines (ls : List (List Char)) : List Char :=
  (ls.map (fun l => l ++ ['\n'])).flatten

/-! ### Structured-object parsing (`GatewayClient.generateObject`)

`generateObject` asks `generateText` for a response; the response-parsing
phase (the code after the await) is modelled here, with the model's
response text as input. -/

/-- The fence-stripping of `generateObject`: trim, drop a leading
```` ```json ````, drop a leading ```` ``` ````, drop a trailing
```` ``` ````  (`slice(7)`, `slice(3)` and `slice(0, -3)` on character
lists). -/
def cleanFences (response : List Char) : List Char :=
  let c0 := jsTrim response
  let c1 := if startsWithL ("```json".toList) c0 then c0.drop 7 else c0
  let c2 := if startsWithL ("```".toList) c1 then c1.drop 3 else c1
  if endsWithL ("```".toList) c2 then c2.take (c2.length - 3) else c2

/-- The response-parsing phase of `generateObject`: strip fences, parse
the remainder as JSON, and on failure throw a `GatewayError` whose message
carries the offending (fence-stripped) text. -/
def generateObject (response : List Char) : Except (List Char) Json :=
  let cleaned := cleanFences response
  match parseJson (jsTrim cleaned) with
  | some j => .ok j
  | none => .error ("Failed to parse JSON response: ".toList ++ cleaned)

/-! ### Request URL building (`GatewayClient.url`) -/

/-- `baseUrl.replace(/\/$/, "")`: remove one trailing slash if present. -/
def stripTrailingSlash (base : List Char) : List Char :=
  if base.getLast? = some '/' then base.dropLast else base

/-- `GatewayClient.url`: the stripped base URL with the endpoint appended. -/
def url (baseUrl endpoint : List Char) : List Char :=
  stripTrailingSlash baseUrl ++ endpoint

/-! ### Config resolution (`typescript/utils/config.ts`) -/

/-- JavaScript `parseInt(s, 10)`: skip leading whitespace, an optional
sign, then the longest prefix of decimal digits; no digits is `NaN`
(`none`).  Trailing non-digit text is ignored. -/
def parseInt10 (s : List Char) : Option Int :=
  let s1 := s.dropWhile isJsWs
  match s1 with
  | '-' :: r =>
    match lexDigits1 r with
    | some (ds, _) => some (-(Int.ofNat (ds.foldl (fun acc c => acc * 10 + (c.toNat - 48)) 0)))
    | none => none
  | '+' :: r =>
    match lexDigits1 r with
    | some (ds, _) => some (Int.ofNat (ds.foldl (fun acc c => acc * 10 + (c.toNat - 48)) 0))
    | none => none
  | _ =>
    match lexDigits1 s1 with
    | some (ds, _) => some (Int.ofNat (ds.foldl (fun acc c => acc * 10 + (c.toNat - 48)) 0))
    | none => none

/-- `DEFAULT_CONFIG.embeddingDimensions`. -/
def defaultEmbeddingDimensions : Int := 1536

/-- `DEFAULT_CONFIG.timeoutMs`. -/
def defaultTimeoutMs : Int := 60000

/-- `getEmbeddingDimensions`: the `AI_GATEWAY_EMBEDDING_DIMENSIONS`
setting (already resolved through runtime and environment, `none` when
absent), defensively parsed; non-positive or unparsable values fall back
to the default. -/
def getEmbeddingDimensions (setting : Option String) : Int :=
  match setting with
  | some dims =>
    if dims ≠ "" then
      match parseInt10 dims.toList with
      | some parsed => if 0 < parsed then parsed else defaultEmbeddingDimensions
      | none => defaultEmbeddingDimensions
    else defaultEmbeddingDimensions
  | none => defaultEmbeddingDimensions

/-- `getTimeoutMs`: the `AI_GATEWAY_TIMEOUT_MS` setting, defensively
parsed with the same rule. -/
def getTimeoutMs (setting : Option String) : Int :=
  match setting with
  | some timeout =>
    if timeout ≠ "" then
      match parseInt10 timeout.toList with
      | some parsed => if 0 < parsed then parsed else defaultTimeoutMs
      | none => defaultTimeoutMs
    else defaultTimeoutMs
  | none => defaultTimeoutMs

/-- JavaScript `String.prototype.includes` on character lists: the needle
occurs at the current position or further right. -/
def containsSub (needle : List Char) : List Char → Bool
  | [] => needle.isEmpty
  | c :: t => startsWithL needle (c :: t) || containsSub needle t

/-- The `NO_TEMPERATURE_MODELS` denylist (iteration order of the `Set`
does not affect the result). -/
def NO_TEMPERATURE_MODELS : List String :=
  ["o1", "o1-preview", "o1-mini", "o3", "o3-mini", "gpt-5", "gpt-5-mini"]

/-- `toLowerCase` on one character (ASCII range, which covers every model
id the plugin handles). -/
def lowerChar (c : Char) : Char :=
  if 'A' ≤ c ∧ c ≤ 'Z' then Char.ofNat (c.toNat + 32) else c

/-- `model.toLowerCase()` on character lists. -/
def toLowerL (s : List Char) : List Char := s.map lowerChar

/-- `modelSupportsTemperature`: `false` iff the lowercased model id
contains one of the denylist entries as a substring. -/
def modelSupportsTemperature (model : String) : Bool :=
  !(NO_TEMPERATURE_MODELS.any (fun m => containsSub m.toList (toLowerL model.toList)))

/-! ### Embedding truncation (`typescript/models/embedding.ts`)

`MAX_EMBEDDING_TOKENS` is imported from `@elizaos/core`; the handler is
parametrised by it. -/

/-- The three input shapes `handleTextEmbedding` accepts. -/
inductive TsEmbInput where
  | null : TsEmbInput
  | str (s : List Char) : TsEmbInput
  | obj (text : List Char) : TsEmbInput

/-- The text `handleTextEmbedding` extracts from its parameters before
truncation (`null` becomes the probe text `"test"`). -/
def tsEmbRawText : TsEmbInput → List Char
  | .null => "test".toList
  | .str s => s
  | .obj t => t

/-- The text `handleTextEmbedding` passes to
`client.createEmbedding`: truncated to `MAX_EMBEDDING_TOKENS * 4`
characters (the 4-chars-per-token heuristic) when longer. -/
def embeddingRequestText (maxEmbeddingTokens : Nat) (p : TsEmbInput) : List Char :=
  let text := tsEmbRawText p
  let maxChars := maxEmbeddingTokens * 4
  if text.length > maxChars then text.take maxChars else text

/-! ### The resilient embedding handler (`src/handlers/embedding.ts`)

The handler runs after `getAIGatewayConfig` has resolved a configuration;
the transport call `client.makeOpenAIRequest` is modelled by its
observable outcome, a `GatewayResponse` (the client's `makeRequest`
catches every transport and parse failure and returns
`{success: false}`). -/

/-- The discriminated result shape of `utils/client.ts`. -/
structure GatewayResponse (T : Type) where
  success : Bool
  data : Option T
  error : Option String := none

/-- The `embedding` property of one entry of the response's `data` array:
absent, present but not an array, or an array of numbers. -/
inductive EmbField where
  | missing : EmbField
  | notArray : EmbField
  | vec (v : List ℚ) : EmbField

/-- One entry of the embedding response's `data` array. -/
structure EmbEntry where
  embedding : EmbField

/-- The embedding response body as the handler navigates it
(`response.data.data?.[0]?.embedding`). -/
structure EmbRespData where
  data : Option (List EmbEntry)

/-- The input shapes the resilient `handleTextEmbedding` accepts. -/
inductive EmbInput where
  | null : EmbInput
  | str (s : String) : EmbInput
  | obj (text : String) : EmbInput

/-- `Array(768).fill(0)` with the leading element set to the sentinel. -/
def fallbackVec (sentinel : ℚ) : List ℚ :=
  sentinel :: List.replicate 767 (0 : ℚ)

/-- The text the resilient handler extracts, `none` when the input shape
is invalid (`typeof params === 'object' && params.text` with a falsy
`text`). -/
def embTextOf : EmbInput → Option String
  | .null => none
  | .str s => some s
  | .obj t => if t ≠ "" then some t else none

/-- `response.data.data?.[0]?.embedding` followed by the
`!embedding || !Array.isArray(embedding)` check: the embedding vector when
the response body has the expected shape. -/
def embExtract (body : EmbRespData) : Option (List ℚ) :=
  match body.data with
  | some (entry :: _) =>
    match entry.embedding with
    | .vec v => some v
    | _ => none
  | _ => none

/-- The resilient `handleTextEmbedding` of `src/handlers/embedding.ts`:
every failure becomes a 768-length zero vector with a sentinel leading
element (0.1 initialization probe, 0.2 invalid input shape, 0.3 empty
text, 0.4 transport failure, 0.5 malformed response); the usage event
emission does not affect the result. -/
def handleTextEmbedding (p : EmbInput) (resp : GatewayResponse EmbRespData) : List ℚ :=
  match p with
  | .null => fallbackVec (1/10)
  | _ =>
    match embTextOf p with
    | none => fallbackVec (2/10)
    | some text =>
      if text.trim = "" then fallbackVec (3/10)
      else if !resp.success then fallbackVec (4/10)
      else
        match resp.data with
        | none => fallbackVec (4/10)
        | some body =>
          match embExtract body with
          | some v => v
          | none => fallbackVec (5/10)

/-! ### Provider resolution (`resolveProvider`)

The `ENV_KEYS` table mapping provider names to credential keys lives in
the plugin's `types` module (not among the sources here); `resolveProvider`
only reads it, so it is passed as a parameter, together with the
credential predicate (the truthiness of
`runtime.getSetting(key) || process.env[key]`) and the enumeration order
of `Object.keys(ENV_KEYS)`. -/

/-- `resolveProvider`: preferred provider if its credential is present,
else the Vercel AI Gateway, else OpenRouter, else the first provider in
enumeration order with a credential, else the preferred provider
unchanged. -/
def resolveProvider (envKeys : String → String) (hasKey : String → Bool)
    (providers : List String) (preferred : String) : String :=
  if hasKey (envKeys preferred) then preferred
  else if hasKey "AI_GATEWAY_API_KEY" then "vercel-gateway"
  else if hasKey "OPENROUTER_API_KEY" then "openrouter"
  else
    match providers.find? (fun p => hasKey (envKeys p)) with
    | some p => p
    | none => preferred

/-- The characters a complete JSON value can end with. -/
def valueEndChar (c : Char) : Prop :=
  c.isDigit = true ∨ c = 'l' ∨ c = 'e' ∨ c = '"' ∨ c = ']' ∨ c = '}'

/-- A model response: the JSON text wrapped in a fenced code block with
the `json` language tag. -/
def wrapJsonFence (t : List Char) : List Char :=
  "```json\n".toList ++ t ++ "\n```".toList

/-! ## Lemmas and claim theorems -/

theorem startsWithL_iff (p s : List Char) : startsWithL p s = true ↔ p <+: s := by
  simp only [startsWithL, decide_eq_true_eq, List.prefix_iff_eq_take]
  exact eq_comm

theorem containsSub_iff (needle hay : List Char) :
    containsSub needle hay = true ↔ needle <:+: hay := by
  induction hay with
  | nil =>
    simp [containsSub, List.isEmpty_iff]
  | cons c t ih =>
    simp [containsSub, startsWithL_iff, ih, List.infix_cons_iff]

/-- C8: `modelSupportsTemperature` rejects `gpt-5-mini` and accepts
`gpt-4o`, and in general answers `false` exactly when the lowercased
model id contains one of the `NO_TEMPERATURE_MODELS` substrings. -/
theorem modelSupportsTemperature_spec :
    modelSupportsTemperature "gpt-5-mini" = false ∧
    modelSupportsTemperature "gpt-4o" = true ∧
    ∀ m : String, modelSupportsTemperature m = false ↔
      ∃ d ∈ NO_TEMPERATURE_MODELS, d.toList <:+: toLowerL m.toList := by
  refine ⟨by decide, by decide, fun m => ?_⟩
  simp [modelSupportsTemperature, containsSub_iff, List.any_eq_true]

/-- C9: the numeric setting resolvers are total: a value that
`parseInt(·, 10)` reads as a positive integer is used, and any
non-numeric or non-positive value falls back to the defaults
(1536 dimensions, 60000 ms). -/
theorem numeric_settings_defensive :
    (∀ (v : String) (p : Int), parseInt10 v.toList = some p → 0 < p →
      getEmbeddingDimensions (some v) = p ∧ getTimeoutMs (some v) = p) ∧
    (∀ v : String, (∀ p : Int, parseInt10 v.toList = some p → p ≤ 0) →
      getEmbeddingDimensions (some v) = 1536 ∧ getTimeoutMs (some v) = 60000) ∧
    getEmbeddingDimensions none = 1536 ∧ getTimeoutMs none = 60000 := by
  have hnil : parseInt10 ([] : List Char) = none := rfl
  refine ⟨fun v p hp hpos => ?_, fun v hb => ?_, rfl, rfl⟩
  · have hv : v ≠ "" := by
      intro h
      subst h
      rw [show ("" : String).toList = [] from rfl, hnil] at hp
      exact Option.noConfusion hp
    constructor
    · simp only [getEmbeddingDimensions, if_pos hv, hp, if_pos hpos]
    · simp only [getTimeoutMs, if_pos hv, hp, if_pos hpos]
  · by_cases hv : v = ""
    · subst hv
      constructor
      · simp [getEmbeddingDimensions, defaultEmbeddingDimensions]
      · simp [getTimeoutMs, defaultTimeoutMs]
    · cases hp : parseInt10 v.toList with
      | none =>
        constructor
        · simp only [getEmbeddingDimensions, if_pos hv, hp, defaultEmbeddingDimensions]
        · simp only [getTimeoutMs, if_pos hv, hp, defaultTimeoutMs]
      | some p =>
        have hle : ¬ 0 < p := not_lt.mpr (hb p hp)
        constructor
        · simp only [getEmbeddingDimensions, if_pos hv, hp, if_neg hle,
            defaultEmbeddingDimensions]
        · simp only [getTimeoutMs, if_pos hv, hp, if_neg hle, defaultTimeoutMs]

/-- C9 witness: concrete positive, negative and non-numeric settings. -/
theorem numeric_settings_defensive_witness :
    getEmbeddingDimensions (some "2048") = 2048 ∧ getTimeoutMs (some "2048") = 2048 ∧
    getEmbeddingDimensions (some "-30") = 1536 ∧ getTimeoutMs (some "abc") = 60000 := by
  have h1 := numeric_settings_defensive.1 "2048" 2048 (by decide) (by decide)
  have h2 := (numeric_settings_defensive.2.1 "-30" (fun p hp => by
    rw [show parseInt10 ("-30".toList) = some (-30) from by decide] at hp
    cases hp
    decide)).1
  have h3 := (numeric_settings_defensive.2.1 "abc" (fun p hp => by
    rw [show parseInt10 ("abc".toList) = none from by decide] at hp
    exact Option.noConfusion hp)).2
  exact ⟨h1.1, h1.2, h2, h3⟩

/-- C7: the text handed to `createEmbedding` is the input truncated to
exactly `MAX_EMBEDDING_TOKENS * 4` characters when it is longer than that
budget, and the unchanged input otherwise. -/
theorem embedding_truncation_spec (maxTok : Nat) (p : TsEmbInput) :
    ((tsEmbRawText p).length > maxTok * 4 →
      embeddingRequestText maxTok p = (tsEmbRawText p).take (maxTok * 4) ∧
      (embeddingRequestText maxTok p).length = maxTok * 4) ∧
    ((tsEmbRawText p).length ≤ maxTok * 4 →
      embeddingRequestText maxTok p = tsEmbRawText p) := by
  constructor
  · intro h
    refine ⟨by simp only [embeddingRequestText, if_pos h], ?_⟩
    simp only [embeddingRequestText, if_pos h, List.length_take]
    omega
  · intro h
    have hno : ¬ (tsEmbRawText p).length > maxTok * 4 := by omega
    simp only [embeddingRequestText, if_neg hno]

/-- C7 witness: a 9-character text against a budget of 2 tokens (8
characters). -/
theorem embedding_truncation_spec_witness :
    embeddingRequestText 2 (.str ("123456789".toList)) = "12345678".toList ∧
    (embeddingRequestText 2 (.str ("123456789".toList))).length = 2 * 4 := by
  have h := (embedding_truncation_spec 2 (.str ("123456789".toList))).1 (by decide)
  exact ⟨h.1.trans (by decide), h.2⟩

/-- C10 counterexample: a base URL already ending in a slash and the same
URL with one more trailing slash build different request URLs, because
`replace(/\/$/, "")` strips only one slash. -/
theorem url_trailing_slash_cex :
    url ("https://h//".toList) ("/chat".toList) ≠
      url ("https://h/".toList) ("/chat".toList) := by decide

/-- C10 amended: for a base URL that does not already end in a slash,
appending a single trailing slash leaves every request URL unchanged, and
the URL is the base with the endpoint appended. -/
theorem url_trailing_slash_invariant (base endpoint : List Char)
    (h : base.getLast? ≠ some '/') :
    url (base ++ ['/']) endpoint = url base endpoint ∧
    url base endpoint = base ++ endpoint := by
  have h1 : stripTrailingSlash (base ++ ['/']) = base := by
    unfold stripTrailingSlash
    rw [if_pos (List.getLast?_concat base), List.dropLast_concat]
  have h2 : stripTrailingSlash base = base := by
    unfold stripTrailingSlash
    rw [if_neg h]
  unfold url
  rw [h1, h2]
  exact ⟨rfl, rfl⟩

/-- C10 witness: the default gateway base URL with and without a trailing
slash. -/
theorem url_trailing_slash_invariant_witness :
    url ("https://ai-gateway.vercel.sh/v1/".toList) ("/chat/completions".toList) =
      url ("https://ai-gateway.vercel.sh/v1".toList) ("/chat/completions".toList) := by
  have h := url_trailing_slash_invariant ("https://ai-gateway.vercel.sh/v1".toList)
    ("/chat/completions".toList) (by decide)
  exact h.1

/-- C4: when the only present credential is the OpenRouter key (and the
preferred provider's own key, which can only be the OpenRouter key when
the preferred provider is OpenRouter itself, is absent), `resolveProvider`
returns `"openrouter"` whatever provider was preferred. -/
theorem resolveProvider_openrouter_fallback (envKeys : String → String)
    (hasKey : String → Bool) (providers : List String) (preferred : String)
    (honly : ∀ k, hasKey k = true ↔ k = "OPENROUTER_API_KEY")
    (hpref : envKeys preferred = "OPENROUTER_API_KEY" → preferred = "openrouter") :
    resolveProvider envKeys hasKey providers preferred = "openrouter" := by
  unfold resolveProvider
  by_cases hc : hasKey (envKeys preferred) = true
  · rw [if_pos hc, hpref ((honly _).mp hc)]
  · have hag : ¬ hasKey "AI_GATEWAY_API_KEY" = true := by
      rw [honly]
      decide
    have hor : hasKey "OPENROUTER_API_KEY" = true := (honly _).mpr rfl
    rw [if_neg hc, if_neg hag, if_pos hor]

/-- C4 witness: only `OPENROUTER_API_KEY` is set and `anthropic` is
preferred. -/
theorem resolveProvider_openrouter_fallback_witness :
    resolveProvider
      (fun p => if p = "openrouter" then "OPENROUTER_API_KEY" else "OPENAI_API_KEY")
      (fun k => k == "OPENROUTER_API_KEY")
      ["vercel-gateway", "openrouter", "openai"] "anthropic" = "openrouter" :=
  resolveProvider_openrouter_fallback _ _ _ _ (fun k => by simp) (by decide)

/-- C5: the resilient embedding handler is total: for every input shape
and every transport outcome it returns either the provider's embedding or
a 768-length zero vector whose leading element is the sentinel of the
failure class (0.1 init probe, 0.2 invalid shape, 0.3 empty text, 0.4
transport failure, 0.5 malformed response); no internal failure escapes. -/
theorem resilient_embedding_spec (p : EmbInput) (resp : GatewayResponse EmbRespData) :
    (∀ q : ℚ, (fallbackVec q).length = 768 ∧
      (fallbackVec q).tail = List.replicate 767 0 ∧ (fallbackVec q).head? = some q) ∧
    ((p = .null ∧ handleTextEmbedding p resp = fallbackVec (1/10)) ∨
     (p ≠ .null ∧ embTextOf p = none ∧ handleTextEmbedding p resp = fallbackVec (2/10)) ∨
     (∃ t, embTextOf p = some t ∧ t.trim = "" ∧
       handleTextEmbedding p resp = fallbackVec (3/10)) ∨
     (∃ t, embTextOf p = some t ∧ t.trim ≠ "" ∧
       (resp.success = false ∨ resp.data = none) ∧
       handleTextEmbedding p resp = fallbackVec (4/10)) ∨
     (∃ t body, embTextOf p = some t ∧ t.trim ≠ "" ∧ resp.success = true ∧
       resp.data = some body ∧ embExtract body = none ∧
       handleTextEmbedding p resp = fallbackVec (5/10)) ∨
     (∃ t body v, embTextOf p = some t ∧ t.trim ≠ "" ∧ resp.success = true ∧
       resp.data = some body ∧ embExtract body = some v ∧
       handleTextEmbedding p resp = v)) := by
  constructor
  · intro q
    refine ⟨?_, rfl, rfl⟩
    unfold fallbackVec
    rw [List.length_cons, List.length_replicate]
  · cases p with
    | null => exact Or.inl ⟨rfl, rfl⟩
    | str s =>
      by_cases ht : s.trim = ""
      · refine Or.inr (Or.inr (Or.inl ⟨s, rfl, ht, ?_⟩))
        simp [handleTextEmbedding, embTextOf, ht]
      · cases hs : resp.success with
        | false =>
          refine Or.inr (Or.inr (Or.inr (Or.inl ⟨s, rfl, ht, Or.inl rfl, ?_⟩)))
          simp [handleTextEmbedding, embTextOf, ht, hs]
        | true =>
          cases hd : resp.data with
          | none =>
            refine Or.inr (Or.inr (Or.inr (Or.inl ⟨s, rfl, ht, Or.inr rfl, ?_⟩)))
            simp [handleTextEmbedding, embTextOf, ht, hs, hd]
          | some body =>
            cases he : embExtract body with
            | none =>
              refine Or.inr (Or.inr (Or.inr (Or.inr (Or.inl
                ⟨s, body, rfl, ht, rfl, rfl, he, ?_⟩))))
              simp [handleTextEmbedding, embTextOf, ht, hs, hd, he]
            | some v =>
              refine Or.inr (Or.inr (Or.inr (Or.inr (Or.inr
                ⟨s, body, v, rfl, ht, rfl, rfl, he, ?_⟩))))
              simp [handleTextEmbedding, embTextOf, ht, hs, hd, he]
    | obj t =>
      by_cases h0 : t = ""
      · refine Or.inr (Or.inl ⟨by simp, ?_, ?_⟩)
        · simp [embTextOf, h0]
        · subst h0
          simp [handleTextEmbedding, embTextOf]
      · have hsome : embTextOf (.obj t) = some t := by simp [embTextOf, h0]
        by_cases ht : t.trim = ""
        · refine Or.inr (Or.inr (Or.inl ⟨t, hsome, ht, ?_⟩))
          simp [handleTextEmbedding, embTextOf, h0, ht]
        · cases hs : resp.success with
          | false =>
            refine Or.inr (Or.inr (Or.inr (Or.inl ⟨t, hsome, ht, Or.inl rfl, ?_⟩)))
            simp [handleTextEmbedding, embTextOf, h0, ht, hs]
          | true =>
            cases hd : resp.data with
            | none =>
              refine Or.inr (Or.inr (Or.inr (Or.inl ⟨t, hsome, ht, Or.inr rfl, ?_⟩)))
              simp [handleTextEmbedding, embTextOf, h0, ht, hs, hd]
            | some body =>
              cases he : embExtract body with
              | none =>
                refine Or.inr (Or.inr (Or.inr (Or.inr (Or.inl
                  ⟨t, body, hsome, ht, rfl, rfl, he, ?_⟩))))
                simp [handleTextEmbedding, embTextOf, h0, ht, hs, hd, he]
              | some v =>
                refine Or.inr (Or.inr (Or.inr (Or.inr (Or.inr
                  ⟨t, body, v, hsome, ht, rfl, rfl, he, ?_⟩))))
                simp [handleTextEmbedding, embTextOf, h0, ht, hs, hd, he]

/-! ### Streaming parser lemmas -/

theorem splitLines_append (x y : List Char) :
    splitLines (x ++ y) =
      ((splitLines x).1 ++ (splitLines ((splitLines x).2 ++ y)).1,
       (splitLines ((splitLines x).2 ++ y)).2) := by
  induction x with
  | nil => simp [splitLines]
  | cons c cs ih =>
    by_cases hc : c = '\n'
    · subst hc
      simp [splitLines, ih]
    · rcases h1 : splitLines cs with ⟨L1, r1⟩
      cases L1 with
      | nil =>
        rcases h2 : splitLines (r1 ++ y) with ⟨L2, r2⟩
        have e2 : splitLines (cs ++ y) = (L2, r2) := by
          rw [ih, h1]
          simpa using h2
        cases L2 with
        | nil => simp [splitLines, hc, h1, h2, e2]
        | cons h t => simp [splitLines, hc, h1, h2, e2]
      | cons l ls =>
        rcases h2 : splitLines (r1 ++ y) with ⟨L2, r2⟩
        have e2 : splitLines (cs ++ y) = (l :: (ls ++ L2), r2) := by
          rw [ih, h1]
          simp [h2]
        simp [splitLines, hc, h1, h2, e2]

theorem processLines_append (u v : List (List Char)) :
    processLines (u ++ v) =
      if (processLines u).2 then processLines u
      else ((processLines u).1 ++ (processLines v).1, (processLines v).2) := by
  induction u with
  | nil => simp [processLines]
  | cons l u ih =>
    by_cases h1 : startsWithL dataMarker l
    · by_cases h2 : l.drop 6 = doneData
      · simp [processLines, h1, h2]
      · cases h3 : parseDeltaContent (l.drop 6) with
        | some c =>
          by_cases h4 : (processLines u).2
          · simp [processLines, h1, h2, h3, ih, h4]
          · simp [processLines, h1, h2, h3, ih, h4]
        | none => simp [processLines, h1, h2, h3, ih]
    · simp [processLines, h1, ih]

theorem streamTextGo_merge (buf a b : List Char) (cs : List (List Char)) :
    streamTextGo buf ((a ++ b) :: cs) = streamTextGo buf (a :: b :: cs) := by
  have hsplit := splitLines_append (buf ++ a) b
  rcases h1 : splitLines (buf ++ a) with ⟨L1, r1⟩
  rcases h2 : splitLines (r1 ++ b) with ⟨L2, r2⟩
  rw [h1, h2] at hsplit
  have hs : splitLines (buf ++ (a ++ b)) = (L1 ++ L2, r2) := by
    rw [← List.append_assoc]
    exact hsplit
  have hp := processLines_append L1 L2
  by_cases t1 : (processLines L1).2
  · simp [streamTextGo, hs, h1, hp, t1]
  · by_cases t2 : (processLines L2).2
    · simp [streamTextGo, hs, h1, h2, hp, t1, t2]
    · simp [streamTextGo, hs, h1, h2, hp, t1, t2]

theorem streamTextGo_join (buf c : List Char) (cs : List (List Char)) :
    streamTextGo buf (c :: cs) = streamTextGo buf [c ++ cs.flatten] := by
  induction cs generalizing buf c with
  | nil => simp
  | cons b cs ih =>
    rw [← streamTextGo_merge, ih, List.flatten_cons, List.append_assoc]

/-- C1: the fragments yielded by `streamText` do not depend on how the
byte stream is cut into reads: any chunking yields exactly the fragments
of the whole text delivered in one read, because the partial-line buffer
carries the unterminated remainder and only newline-terminated lines are
processed. -/
theorem streamText_chunking_invariant (chunks : List (List Char)) :
    streamText chunks = streamText [chunks.flatten] := by
  cases chunks with
  | nil => simp [streamText, streamTextGo, splitLines, processLines]
  | cons c cs => exact streamTextGo_join [] c cs

/-- Processing a single chunk yields the fragments of its complete lines. -/
theorem streamText_single (c : List Char) :
    streamText [c] = (processLines (splitLines c).1).1 := by
  by_cases h : (processLines (splitLines c).1).2 <;>
    simp [streamText, streamTextGo, h]

theorem splitLines_line (l rest : List Char) (h : '\n' ∉ l) :
    splitLines (l ++ '\n' :: rest) =
      (l :: (splitLines rest).1, (splitLines rest).2) := by
  induction l with
  | nil => simp [splitLines]
  | cons c cl ih =>
    have hc : c ≠ '\n' := fun hx => h (hx ▸ List.mem_cons_self c cl)
    have ih2 := ih (fun hx => h (List.mem_cons_of_mem c hx))
    simp [splitLines, hc, ih2]

theorem splitLines_unlines (ls : List (List Char)) (h : ∀ l ∈ ls, '\n' ∉ l) :
    splitLines (unlines ls) = (ls, []) := by
  induction ls with
  | nil => simp [unlines, splitLines]
  | cons l ls ih =>
    have h1 : '\n' ∉ l := h l (List.mem_cons_self l ls)
    have ih2 := ih (fun x hx => h x (List.mem_cons_of_mem l hx))
    have : unlines (l :: ls) = l ++ '\n' :: unlines ls := by
      simp [unlines]
    rw [this, splitLines_line l (unlines ls) h1, ih2]

/-- The `data: [DONE]` line. -/
theorem processLines_doneLine (u v : List (List Char)) :
    processLines (u ++ ("data: [DONE]".toList) :: v) = ((processLines u).1, true) := by
  have hdone : processLines (("data: [DONE]".toList) :: v) = ([], true) := rfl
  rw [processLines_append, hdone]
  by_cases t : (processLines u).2
  · rw [if_pos t]
    exact Prod.ext rfl t
  · rw [if_neg t]
    simp

/-- C2: once the `data: [DONE]` sentinel line is processed, the generator
returns: the fragments are those of the lines before the sentinel, and
neither later lines in the same stream text nor later chunks contribute
anything. -/
theorem streamText_done_terminates (u v cs : List (List Char))
    (hu : ∀ l ∈ u, '\n' ∉ l) (hv : ∀ l ∈ v, '\n' ∉ l) :
    streamText ((unlines (u ++ ("data: [DONE]".toList) :: v)) :: cs) =
      streamText [unlines (u ++ ["data: [DONE]".toList])] := by
  have hd : ('\n' : Char) ∉ "data: [DONE]".toList := by decide
  have hall : ∀ l ∈ u ++ ("data: [DONE]".toList) :: v, '\n' ∉ l := by
    intro l hl
    rcases List.mem_append.mp hl with h | h
    · exact hu l h
    · rcases List.mem_cons.mp h with h | h
      · exact h ▸ hd
      · exact hv l h
  have hall2 : ∀ l ∈ u ++ ["data: [DONE]".toList], '\n' ∉ l := by
    intro l hl
    rcases List.mem_append.mp hl with h | h
    · exact hu l h
    · rcases List.mem_cons.mp h with h | h
      · exact h ▸ hd
      · exact absurd h (List.not_mem_nil l)
  have e1 := splitLines_unlines _ hall
  have e2 := splitLines_unlines _ hall2
  have p1 := processLines_doneLine u v
  have p2 := processLines_doneLine u ([] : List (List Char))
  simp only [streamText, streamTextGo, List.nil_append, e1, e2, p1, p2]
  simp

/-- C2 witness: a fragment before the sentinel is kept, a complete line
after it and a whole later chunk are discarded. -/
theorem streamText_done_terminates_witness :
    streamText ((unlines
        (["data: \x7b\"choices\":[\x7b\"delta\":\x7b\"content\":\"a\"\x7d\x7d]\x7d".toList,
          "data: [DONE]".toList,
          "data: \x7b\"choices\":[\x7b\"delta\":\x7b\"content\":\"b\"\x7d\x7d]\x7d".toList])) ::
        ["data: \x7b\"choices\":[\x7b\"delta\":\x7b\"content\":\"c\"\x7d\x7d]\x7d\n".toList]) =
      ["a".toList] := by
  have h := streamText_done_terminates
    (["data: \x7b\"choices\":[\x7b\"delta\":\x7b\"content\":\"a\"\x7d\x7d]\x7d".toList])
    (["data: \x7b\"choices\":[\x7b\"delta\":\x7b\"content\":\"b\"\x7d\x7d]\x7d".toList])
    (["data: \x7b\"choices\":[\x7b\"delta\":\x7b\"content\":\"c\"\x7d\x7d]\x7d\n".toList])
    (by decide) (by decide)
  rw [show (["data: \x7b\"choices\":[\x7b\"delta\":\x7b\"content\":\"a\"\x7d\x7d]\x7d".toList] ++
      ("data: [DONE]".toList) ::
      ["data: \x7b\"choices\":[\x7b\"delta\":\x7b\"content\":\"b\"\x7d\x7d]\x7d".toList]) =
    ["data: \x7b\"choices\":[\x7b\"delta\":\x7b\"content\":\"a\"\x7d\x7d]\x7d".toList,
     "data: [DONE]".toList,
     "data: \x7b\"choices\":[\x7b\"delta\":\x7b\"content\":\"b\"\x7d\x7d]\x7d".toList] from rfl] at h
  rw [h]
  rfl

/-- C3 counterexample: the sentinel payload `[DONE]` is itself not valid
JSON, yet its data line is not skipped-and-continued: it terminates the
stream, so a valid data line after it yields nothing, while the same
valid line alone yields its fragment. -/
theorem streamText_invalid_json_cex :
    parseJson ("[DONE]".toList) = none ∧
    streamText
      ["data: [DONE]\ndata: \x7b\"choices\":[\x7b\"delta\":\x7b\"content\":\"hi\"\x7d\x7d]\x7d\n".toList] =
      [] ∧
    streamText
      ["data: \x7b\"choices\":[\x7b\"delta\":\x7b\"content\":\"hi\"\x7d\x7d]\x7d\n".toList] =
      ["hi".toList] :=
  ⟨rfl, rfl, rfl⟩

/-- C3 amended: a data line whose payload is not valid JSON and is not
the `[DONE]` sentinel is skipped without raising: the stream yields
exactly the fragments it would yield without that line, so every
subsequent valid data line still yields its content. -/
theorem streamText_skips_invalid_json (u v : List (List Char)) (p : List Char)
    (hu : ∀ l ∈ u, '\n' ∉ l) (hv : ∀ l ∈ v, '\n' ∉ l) (hp : '\n' ∉ p)
    (hbad : parseJson p = none) (hnd : p ≠ "[DONE]".toList) :
    streamText [unlines (u ++ ("data: ".toList ++ p) :: v)] =
      streamText [unlines (u ++ v)] := by
  have hline : '\n' ∉ ("data: ".toList ++ p) := by
    intro hmem
    rcases List.mem_append.mp hmem with h | h
    · exact absurd h (by decide)
    · exact hp h
  have hall : ∀ l ∈ u ++ ("data: ".toList ++ p) :: v, '\n' ∉ l := by
    intro l hl
    rcases List.mem_append.mp hl with h | h
    · exact hu l h
    · rcases List.mem_cons.mp h with h | h
      · exact h ▸ hline
      · exact hv l h
  have hall2 : ∀ l ∈ u ++ v, '\n' ∉ l := by
    intro l hl
    rcases List.mem_append.mp hl with h | h
    · exact hu l h
    · exact hv l h
  have e1 := splitLines_unlines _ hall
  have e2 := splitLines_unlines _ hall2
  have hstart : startsWithL dataMarker ("data: ".toList ++ p) = true := by
    unfold startsWithL
    exact decide_eq_true (List.take_left _ _)
  have hdrop : ("data: ".toList ++ p).drop 6 = p := by simp
  have hpd : parseDeltaContent p = none := by
    simp [parseDeltaContent, hbad]
  have hnd2 : p ≠ doneData := hnd
  have hskip : processLines (("data: ".toList ++ p) :: v) = processLines v := by
    rw [processLines, if_neg (not_not_intro hstart)]
    simp only [hdrop]
    rw [if_neg hnd2, hpd]
  rw [streamText_single, streamText_single, e1, e2,
    processLines_append u (("data: ".toList ++ p) :: v), processLines_append u v, hskip]

/-- C3 witness: an invalid-JSON payload between two valid lines is
skipped and both valid fragments are still yielded. -/
theorem streamText_skips_invalid_json_witness :
    streamText [unlines
      (["data: \x7b\"choices\":[\x7b\"delta\":\x7b\"content\":\"a\"\x7d\x7d]\x7d".toList] ++
        ("data: ".toList ++ "oops".toList) ::
        ["data: \x7b\"choices\":[\x7b\"delta\":\x7b\"content\":\"b\"\x7d\x7d]\x7d".toList])] =
      ["a".toList, "b".toList] := by
  have h := streamText_skips_invalid_json
    (["data: \x7b\"choices\":[\x7b\"delta\":\x7b\"content\":\"a\"\x7d\x7d]\x7d".toList])
    (["data: \x7b\"choices\":[\x7b\"delta\":\x7b\"content\":\"b\"\x7d\x7d]\x7d".toList])
    ("oops".toList) (by decide) (by decide) (by decide) rfl (by decide)
  rw [h]
  rfl

/-! ### Trim and whitespace lemmas for `generateObject` -/

theorem isJsWs_of_isJsonWs (c : Char) (h : isJsonWs c = true) : isJsWs c = true := by
  simp only [isJsonWs, Bool.or_eq_true, decide_eq_true_eq] at h
  simp only [isJsWs, Bool.or_eq_true, decide_eq_true_eq]
  tauto

theorem dropWhile_head_false (p : Char → Bool) (l : List Char) (c : Char) (t : List Char)
    (h : l.dropWhile p = c :: t) : p c = false := by
  induction l with
  | nil => exact absurd h (by simp)
  | cons a l ih =>
    by_cases ha : p a
    · rw [List.dropWhile_cons, if_pos ha] at h
      exact ih h
    · rw [List.dropWhile_cons, if_neg ha] at h
      cases h
      exact Bool.not_eq_true _ ▸ ha

theorem dropTrailingWs_isPre (z : List Char) : dropTrailingWs z <+: z := by
  have h := List.dropWhile_suffix (l := z.reverse) isJsWs
  have h2 := List.reverse_prefix.mpr h
  simpa [dropTrailingWs] using h2

theorem dropTrailingWs_getLast (z : List Char) (d : Char)
    (h : (dropTrailingWs z).getLast? = some d) : isJsWs d = false := by
  rw [dropTrailingWs, List.getLast?_reverse] at h
  cases hw : z.reverse.dropWhile isJsWs with
  | nil => rw [hw] at h; exact absurd h (by simp)
  | cons a t =>
    rw [hw] at h
    simp only [List.head?_cons, Option.some.injEq] at h
    exact h ▸ dropWhile_head_false _ _ _ _ hw

theorem dropTrailingWs_of_last (z : List Char) (d : Char)
    (hlast : z.getLast? = some d) (hd : isJsWs d = false) : dropTrailingWs z = z := by
  obtain ⟨y, hy⟩ := List.getLast?_eq_some_iff.mp hlast
  subst hy
  rw [dropTrailingWs, List.reverse_append, List.reverse_singleton]
  simp only [List.singleton_append, List.dropWhile_cons, hd]
  simp

theorem jsTrim_cons_ws (c : Char) (x : List Char) (h : isJsWs c = true) :
    jsTrim (c :: x) = jsTrim x := by
  simp [jsTrim, List.dropWhile_cons, h]

theorem dropTrailingWs_concat_ws (x : List Char) (d : Char) (h : isJsWs d = true) :
    dropTrailingWs (x ++ [d]) = dropTrailingWs x := by
  rw [dropTrailingWs, dropTrailingWs, List.reverse_append, List.reverse_singleton,
    List.singleton_append, List.dropWhile_cons, if_pos h]

theorem jsTrim_concat_ws (x : List Char) (d : Char) (hd : isJsWs d = true) :
    jsTrim (x ++ [d]) = jsTrim x := by
  induction x with
  | nil => simp [jsTrim, List.dropWhile_cons, hd, dropTrailingWs]
  | cons c x ih =>
    by_cases hc : isJsWs c = true
    · rw [List.cons_append, jsTrim_cons_ws c _ hc, jsTrim_cons_ws c _ hc, ih]
    · rw [jsTrim, jsTrim, List.cons_append, List.dropWhile_cons, if_neg hc,
        List.dropWhile_cons, if_neg hc, ← List.cons_append,
        dropTrailingWs_concat_ws _ _ hd]

theorem jsTrim_head (s : List Char) (c : Char) (t : List Char) (h : jsTrim s = c :: t) :
    isJsWs c = false := by
  have hpre := dropTrailingWs_isPre (s.dropWhile isJsWs)
  rw [jsTrim] at h
  rw [h] at hpre
  obtain ⟨w, hw⟩ := hpre
  exact dropWhile_head_false isJsWs s c (t ++ w) (by rw [← hw]; simp)

theorem skipWs_jsTrim (s : List Char) : skipWs (jsTrim s) = jsTrim s := by
  cases h : jsTrim s with
  | nil => rfl
  | cons c t =>
    have hc := jsTrim_head s c t h
    have hc2 : isJsonWs c = false := by
      cases hj : isJsonWs c
      · rfl
      · exact absurd (isJsWs_of_isJsonWs c hj) (by rw [hc]; exact Bool.false_ne_true)
    rw [skipWs, List.dropWhile_cons, if_neg (by rw [hc2]; exact Bool.false_ne_true)]

theorem jsTrim_getLast (s : List Char) (d : Char) (h : (jsTrim s).getLast? = some d) :
    isJsWs d = false :=
  dropTrailingWs_getLast _ _ h

theorem jsTrim_idem (s : List Char) : jsTrim (jsTrim s) = jsTrim s := by
  cases h : jsTrim s with
  | nil => rfl
  | cons c t =>
    have hc := jsTrim_head s c t h
    rw [jsTrim, List.dropWhile_cons, if_neg (by rw [hc]; exact Bool.false_ne_true)]
    cases hdl : (c :: t).getLast? with
    | none => simp at hdl
    | some d =>
      have hws : isJsWs d = false := jsTrim_getLast s d (by rw [h, hdl])
      exact dropTrailingWs_of_last _ d hdl hws

theorem jsTrim_of_ends (c : Char) (y : List Char) (d : Char)
    (hc : isJsWs c = false) (hlast : (c :: y).getLast? = some d) (hd : isJsWs d = false) :
    jsTrim (c :: y) = c :: y := by
  rw [jsTrim, List.dropWhile_cons, if_neg (by rw [hc]; exact Bool.false_ne_true)]
  exact dropTrailingWs_of_last _ d hlast hd

/-! ### Parser consumption lemmas -/

theorem lexDigits1_suffix (s ds r : List Char) (h : lexDigits1 s = some (ds, r)) :
    r <:+ s := by
  rw [lexDigits1] at h
  by_cases he : (s.takeWhile Char.isDigit).isEmpty
  · rw [if_pos he] at h
    exact absurd h (by simp)
  · rw [if_neg he] at h
    simp only [Option.some.injEq, Prod.mk.injEq] at h
    obtain ⟨-, h2⟩ := h
    exact h2 ▸ List.dropWhile_suffix _

theorem lexInt_suffix (s i r : List Char) (h : lexInt s = some (i, r)) : r <:+ s := by
  cases s with
  | nil => exact absurd h (by simp [lexInt])
  | cons c cs =>
    rw [lexInt] at h
    split_ifs at h with h0 hd
    · simp only [Option.some.injEq, Prod.mk.injEq] at h
      obtain ⟨-, h2⟩ := h
      exact h2 ▸ List.suffix_cons c cs
    · simp only [Option.some.injEq, Prod.mk.injEq] at h
      obtain ⟨-, h2⟩ := h
      exact h2 ▸ (List.dropWhile_suffix _).trans (List.suffix_cons c cs)

theorem lexFrac_suffix (s : List Char) : (lexFrac s).2 <:+ s := by
  cases s with
  | nil => simp [lexFrac]
  | cons c cs =>
    by_cases hc : c = '.'
    · subst hc
      rw [lexFrac]
      by_cases he : (cs.takeWhile Char.isDigit).isEmpty
      · rw [if_pos he]
      · rw [if_neg he]
        exact (List.dropWhile_suffix _).trans (List.suffix_cons _ cs)
    · cases c with
      | mk v h =>
        rw [lexFrac.eq_def]
        split
        next heq => exact absurd heq.symm (by intro hx; cases hx; exact hc rfl)
        next => exact List.suffix_rfl

theorem lexExp_suffix (s : List Char) : (lexExp s).2 <:+ s := by
  rw [lexExp.eq_def]
  split
  next e rest =>
    split_ifs with he
    · split
      next sgn rest2 =>
        split_ifs with hs
        · split
          next ds r heq =>
            exact (lexDigits1_suffix _ _ _ heq).trans
              ((List.suffix_cons sgn rest2).trans (List.suffix_cons e _))
          next => exact List.suffix_rfl
        · split
          next ds r heq =>
            exact (lexDigits1_suffix _ _ _ heq).trans (List.suffix_cons e _)
          next => exact List.suffix_rfl
      next => exact List.suffix_rfl
    · exact List.suffix_rfl
  next => exact List.suffix_rfl

theorem lexNumBody_suffix (s l r : List Char) (h : lexNumBody s = some (l, r)) :
    r <:+ s := by
  rw [lexNumBody] at h
  cases hi : lexInt s with
  | none => rw [hi] at h; exact absurd h (by simp)
  | some p =>
    rcases p with ⟨i, r1⟩
    rw [hi] at h
    simp only [Option.some.injEq, Prod.mk.injEq] at h
    obtain ⟨-, h2⟩ := h
    exact h2 ▸ ((lexExp_suffix _).trans (lexFrac_suffix r1)).trans (lexInt_suffix s i r1 hi)

theorem lexNumber_suffix (s l r : List Char) (h : lexNumber s = some (l, r)) :
    r <:+ s := by
  cases s with
  | nil => exact absurd h (by simp [lexNumber])
  | cons c cs =>
    rw [lexNumber] at h
    split_ifs at h with hm
    · cases hb : lexNumBody cs with
      | none => rw [hb] at h; exact absurd h (by simp)
      | some p =>
        rcases p with ⟨l2, r2⟩
        rw [hb] at h
        simp only [Option.some.injEq, Prod.mk.injEq] at h
        obtain ⟨-, h2⟩ := h
        exact h2 ▸ (lexNumBody_suffix _ _ _ hb).trans (List.suffix_cons _ cs)
    · exact lexNumBody_suffix _ _ _ h

theorem readHex4_suffix (s : List Char) (v : Nat) (r : List Char)
    (h : readHex4 s = some (v, r)) : r <:+ s := by
  rw [readHex4.eq_def] at h
  split at h
  next h1 h2 h3 h4 r0 =>
    split at h
    next =>
      simp only [Option.some.injEq, Prod.mk.injEq] at h
      obtain ⟨-, hr⟩ := h
      exact hr ▸ (show r0 <:+ [h1, h2, h3, h4] ++ r0 from List.suffix_append _ _)
    next => exact absurd h (by simp)
  next => exact absurd h (by simp)

theorem unescapeU_suffix (s cs r : List Char) (h : unescapeU s = some (cs, r)) :
    r <:+ s := by
  rw [unescapeU] at h
  cases hh : readHex4 s with
  | none => rw [hh] at h; exact absurd h (by simp)
  | some p =>
    rcases p with ⟨v, r0⟩
    rw [hh] at h
    simp only [] at h
    have hr0 : r0 <:+ s := readHex4_suffix _ _ _ hh
    split_ifs at h with hsur
    · split at h
      next r1 =>
        cases h2 : readHex4 r1 with
        | none =>
          rw [h2] at h
          simp only [Option.some.injEq, Prod.mk.injEq] at h
          obtain ⟨-, hr⟩ := h
          exact hr ▸ hr0
        | some q =>
          rcases q with ⟨w, r2⟩
          rw [h2] at h
          simp only [] at h
          split_ifs at h with hw
          · simp only [Option.some.injEq, Prod.mk.injEq] at h
            obtain ⟨-, hr⟩ := h
            have : r2 <:+ r1 := readHex4_suffix _ _ _ h2
            exact hr ▸ (this.trans (show r1 <:+ '\\' :: 'u' :: r1 from
              (List.suffix_cons _ _).trans (List.suffix_cons _ _))).trans hr0
          · simp only [Option.some.injEq, Prod.mk.injEq] at h
            obtain ⟨-, hr⟩ := h
            exact hr ▸ hr0
      next =>
        simp only [Option.some.injEq, Prod.mk.injEq] at h
        obtain ⟨-, hr⟩ := h
        exact hr ▸ hr0
    · simp only [Option.some.injEq, Prod.mk.injEq] at h
      obtain ⟨-, hr⟩ := h
      exact hr ▸ hr0

theorem unescape_suffix (s cs r : List Char) (h : unescape s = some (cs, r)) :
    r <:+ s := by
  cases s with
  | nil => exact absurd h (by simp [unescape])
  | cons e r0 =>
    rw [unescape] at h
    split_ifs at h <;>
      first
      | (simp only [Option.some.injEq, Prod.mk.injEq] at h
         obtain ⟨-, hr⟩ := h
         exact hr ▸ List.suffix_cons _ _)
      | (exact (unescapeU_suffix _ _ _ h).trans (List.suffix_cons _ _))

theorem parse_suffix (fuel : Nat) :
    (∀ s j r, parseValue fuel s = some (j, r) → r <:+ s) ∧
    (∀ s es r, parseElems fuel s = some (es, r) → r <:+ s) ∧
    (∀ s ms r, parseMembers fuel s = some (ms, r) → r <:+ s) ∧
    (∀ s out r, parseStringBody fuel s = some (out, r) → r <:+ s) := by
  induction fuel with
  | zero =>
    refine ⟨?_, ?_, ?_, ?_⟩ <;>
      (intro s a r h
       exact absurd h (by simp [parseValue, parseElems, parseMembers, parseStringBody]))
  | succ fuel ih =>
    obtain ⟨ihv, ihe, ihm, ihs⟩ := ih
    have hskip : ∀ u : List Char, skipWs u <:+ u := fun u => List.dropWhile_suffix _
    have hdrop : ∀ (u : List Char) (n : Nat), u.drop n <:+ u := fun u n => List.drop_suffix n u
    refine ⟨?_, ?_, ?_, ?_⟩
    · intro s j r h
      cases s with
      | nil => exact absurd h (by simp [parseValue])
      | cons c r0 =>
        rw [parseValue] at h
        split_ifs at h <;>
          first
          | (simp only [Option.some.injEq, Prod.mk.injEq] at h
             obtain ⟨-, hr⟩ := h
             subst hr
             first
             | exact (hdrop _ _).trans (List.suffix_cons _ _)
             | exact ((hdrop _ _).trans (hskip _)).trans (List.suffix_cons _ _))
          | (split at h
             case _ heq =>
               simp only [Option.some.injEq, Prod.mk.injEq] at h
               obtain ⟨-, hr⟩ := h
               subst hr
               first
               | exact (ihs _ _ _ heq).trans (List.suffix_cons _ _)
               | exact ((ihe _ _ _ heq).trans (hskip _)).trans (List.suffix_cons _ _)
               | exact ((ihm _ _ _ heq).trans (hskip _)).trans (List.suffix_cons _ _)
               | exact lexNumber_suffix _ _ _ heq
             case _ => exact absurd h (by simp))
    · intro s es r h
      rw [parseElems] at h
      split at h
      next => exact absurd h (by simp)
      next j r1 heqv =>
        have hv : r1 <:+ s := (ihv _ _ _ heqv).trans (hskip s)
        split_ifs at h with hc1 hc2
        · split at h
          next es2 r3 heq2 =>
            simp only [Option.some.injEq, Prod.mk.injEq] at h
            obtain ⟨-, hr⟩ := h
            subst hr
            exact (ihe _ _ _ heq2).trans (((hdrop _ _).trans (hskip _)).trans hv)
          next => exact absurd h (by simp)
        · simp only [Option.some.injEq, Prod.mk.injEq] at h
          obtain ⟨-, hr⟩ := h
          subst hr
          exact ((hdrop _ _).trans (hskip _)).trans hv
    · intro s ms r h
      rw [parseMembers] at h
      split_ifs at h with hq
      · split at h
        next => exact absurd h (by simp)
        next key r1 heqs =>
          have h1 : r1 <:+ s := (ihs _ _ _ heqs).trans ((hdrop _ _).trans (hskip s))
          split_ifs at h with hcolon
          · split at h
            next => exact absurd h (by simp)
            next j r3 heqv =>
              have h3 : r3 <:+ s :=
                (ihv _ _ _ heqv).trans
                  (((hskip _).trans ((hdrop _ _).trans (hskip _))).trans h1)
              split_ifs at h with hcm hcb
              · split at h
                next ms2 r5 heqm =>
                  simp only [Option.some.injEq, Prod.mk.injEq] at h
                  obtain ⟨-, hr⟩ := h
                  subst hr
                  exact (ihm _ _ _ heqm).trans (((hdrop _ _).trans (hskip _)).trans h3)
                next => exact absurd h (by simp)
              · simp only [Option.some.injEq, Prod.mk.injEq] at h
                obtain ⟨-, hr⟩ := h
                subst hr
                exact ((hdrop _ _).trans (hskip _)).trans h3
    · intro s out r h
      cases s with
      | nil => exact absurd h (by simp [parseStringBody])
      | cons c r0 =>
        rw [parseStringBody] at h
        split_ifs at h with h1 h2 h3
        · simp only [Option.some.injEq, Prod.mk.injEq] at h
          obtain ⟨-, hr⟩ := h
          subst hr
          exact List.suffix_cons _ _
        · split at h
          next => exact absurd h (by simp)
          next cs r1 hequ =>
            split at h
            next => exact absurd h (by simp)
            next out2 r2 heqb =>
              simp only [Option.some.injEq, Prod.mk.injEq] at h
              obtain ⟨-, hr⟩ := h
              subst hr
              exact (ihs _ _ _ heqb).trans
                ((unescape_suffix _ _ _ hequ).trans (List.suffix_cons _ _))
        · split at h
          next => exact absurd h (by simp)
          next out2 r2 heqb =>
            simp only [Option.some.injEq, Prod.mk.injEq] at h
            obtain ⟨-, hr⟩ := h
            subst hr
            exact (ihs _ _ _ heqb).trans (List.suffix_cons _ _)

/-! ### End-character lemmas: what a successfully parsed value ends with -/

theorem digits_last (l : List Char) (hne : l ≠ [])
    (hall : ∀ c ∈ l, Char.isDigit c = true) :
    ∃ y d, l = y ++ [d] ∧ d.isDigit = true := by
  refine ⟨l.dropLast, l.getLast hne, (List.dropLast_append_getLast hne).symm, ?_⟩
  exact hall _ (List.getLast_mem hne)

theorem takeWhile_digits_last (cs : List Char)
    (hne : ¬ (cs.takeWhile Char.isDigit).isEmpty = true) :
    ∃ y d, cs.takeWhile Char.isDigit = y ++ [d] ∧ d.isDigit = true := by
  refine digits_last _ (by simpa [List.isEmpty_iff] using hne) ?_
  intro c hc
  exact List.mem_takeWhile_imp hc

theorem lexInt_spec (s i r : List Char) (h : lexInt s = some (i, r)) :
    s = i ++ r ∧ ∃ y d, i = y ++ [d] ∧ d.isDigit = true := by
  cases s with
  | nil => exact absurd h (by simp [lexInt])
  | cons c cs =>
    rw [lexInt] at h
    split_ifs at h with h0 hd
    · simp only [Option.some.injEq, Prod.mk.injEq] at h
      obtain ⟨hi, hr⟩ := h
      subst hi; subst hr; subst h0
      exact ⟨rfl, [], '0', rfl, by decide⟩
    · simp only [Option.some.injEq, Prod.mk.injEq] at h
      obtain ⟨hi, hr⟩ := h
      subst hi; subst hr
      refine ⟨by rw [List.cons_append, List.takeWhile_append_dropWhile], ?_⟩
      by_cases he : (cs.takeWhile Char.isDigit).isEmpty = true
      · rw [List.isEmpty_iff] at he
        rw [he]
        exact ⟨[], c, rfl, hd⟩
      · obtain ⟨y, d, hy, hdd⟩ := takeWhile_digits_last cs he
        exact ⟨c :: y, d, by rw [hy]; rfl, hdd⟩

theorem lexFrac_spec (s : List Char) :
    s = (lexFrac s).1 ++ (lexFrac s).2 ∧
    ((lexFrac s).1 = [] ∨ ∃ y d, (lexFrac s).1 = y ++ [d] ∧ d.isDigit = true) := by
  rw [lexFrac.eq_def]
  split
  next cs =>
    by_cases he : (cs.takeWhile Char.isDigit).isEmpty = true
    · rw [if_pos he]
      exact ⟨rfl, Or.inl rfl⟩
    · rw [if_neg he]
      obtain ⟨y, d, hy, hdd⟩ := takeWhile_digits_last cs he
      refine ⟨by rw [List.cons_append, List.takeWhile_append_dropWhile], ?_⟩
      exact Or.inr ⟨'.' :: y, d, by rw [hy]; rfl, hdd⟩
  next => exact ⟨rfl, Or.inl rfl⟩

theorem lexDigits1_spec (s ds r : List Char) (h : lexDigits1 s = some (ds, r)) :
    s = ds ++ r ∧ ∃ y d, ds = y ++ [d] ∧ d.isDigit = true := by
  rw [lexDigits1] at h
  by_cases he : (s.takeWhile Char.isDigit).isEmpty = true
  · rw [if_pos he] at h
    exact absurd h (by simp)
  · rw [if_neg he] at h
    simp only [Option.some.injEq, Prod.mk.injEq] at h
    obtain ⟨hds, hr⟩ := h
    subst hds; subst hr
    exact ⟨(List.takeWhile_append_dropWhile _ _).symm, takeWhile_digits_last s he⟩

theorem lexExp_spec (s : List Char) :
    s = (lexExp s).1 ++ (lexExp s).2 ∧
    ((lexExp s).1 = [] ∨ ∃ y d, (lexExp s).1 = y ++ [d] ∧ d.isDigit = true) := by
  rw [lexExp.eq_def]
  split
  next e rest =>
    split_ifs with he
    · split
      next sgn rest2 =>
        split_ifs with hs
        · split
          next ds r heq =>
            obtain ⟨hsplit, y, d, hy, hdd⟩ := lexDigits1_spec _ _ _ heq
            refine ⟨by rw [List.cons_append, List.cons_append, ← hsplit], ?_⟩
            exact Or.inr ⟨e :: sgn :: y, d, by rw [hy]; rfl, hdd⟩
          next => exact ⟨rfl, Or.inl rfl⟩
        · split
          next ds r heq =>
            obtain ⟨hsplit, y, d, hy, hdd⟩ := lexDigits1_spec _ _ _ heq
            refine ⟨by rw [List.cons_append, ← hsplit], ?_⟩
            exact Or.inr ⟨e :: y, d, by rw [hy]; rfl, hdd⟩
          next => exact ⟨rfl, Or.inl rfl⟩
      next => exact ⟨rfl, Or.inl rfl⟩
    · exact ⟨rfl, Or.inl rfl⟩
  next => exact ⟨rfl, Or.inl rfl⟩

theorem lexNumBody_spec (s l r : List Char) (h : lexNumBody s = some (l, r)) :
    s = l ++ r ∧ ∃ y d, l = y ++ [d] ∧ d.isDigit = true := by
  rw [lexNumBody] at h
  cases hi : lexInt s with
  | none => rw [hi] at h; exact absurd h (by simp)
  | some p =>
    rcases p with ⟨i, r1⟩
    rw [hi] at h
    simp only [Option.some.injEq, Prod.mk.injEq] at h
    obtain ⟨hl, hr⟩ := h
    obtain ⟨hsi, yi, di, hyi, hdi⟩ := lexInt_spec _ _ _ hi
    obtain ⟨hsf, hf⟩ := lexFrac_spec r1
    obtain ⟨hse, hee⟩ := lexExp_spec (lexFrac r1).2
    constructor
    · rw [hsi, hsf, hse, ← hr, ← hl]
      simp
    · rcases hee with he0 | ⟨ye, de, hye, hde⟩
      · rcases hf with hf0 | ⟨yf, df, hyf, hdf⟩
        · refine ⟨yi, di, ?_, hdi⟩
          rw [← hl, he0, hf0, hyi]
          simp
        · refine ⟨i ++ yf, df, ?_, hdf⟩
          rw [← hl, he0, hyf]
          simp
      · refine ⟨i ++ (lexFrac r1).1 ++ ye, de, ?_, hde⟩
        rw [← hl, hye]
        simp

theorem lexNumber_spec (s l r : List Char) (h : lexNumber s = some (l, r)) :
    s = l ++ r ∧ ∃ y d, l = y ++ [d] ∧ d.isDigit = true := by
  cases s with
  | nil => exact absurd h (by simp [lexNumber])
  | cons c cs =>
    rw [lexNumber] at h
    split_ifs at h with hm
    · subst hm
      cases hb : lexNumBody cs with
      | none => rw [hb] at h; exact absurd h (by simp)
      | some p =>
        rcases p with ⟨l2, r2⟩
        rw [hb] at h
        simp only [Option.some.injEq, Prod.mk.injEq] at h
        obtain ⟨hl, hr⟩ := h
        obtain ⟨hsplit, y, d, hy, hd⟩ := lexNumBody_spec _ _ _ hb
        subst hr
        refine ⟨by rw [← hl, List.cons_append, ← hsplit], ?_⟩
        exact ⟨'-' :: y, d, by rw [← hl, hy]; rfl, hd⟩
    · exact lexNumBody_spec _ _ _ h

theorem parseStringBody_closes (fuel : Nat) :
    ∀ s out r, parseStringBody fuel s = some (out, r) → ∃ pre, s = pre ++ '"' :: r := by
  induction fuel with
  | zero =>
    intro s out r h
    exact absurd h (by simp [parseStringBody])
  | succ fuel ih =>
    intro s out r h
    cases s with
    | nil => exact absurd h (by simp [parseStringBody])
    | cons c r0 =>
      rw [parseStringBody] at h
      split_ifs at h with h1 h2 h3
      · simp only [Option.some.injEq, Prod.mk.injEq] at h
        obtain ⟨-, hr⟩ := h
        subst hr
        subst h1
        exact ⟨[], rfl⟩
      · split at h
        next => exact absurd h (by simp)
        next cs r1 hequ =>
          split at h
          next => exact absurd h (by simp)
          next out2 r2 heqb =>
            simp only [Option.some.injEq, Prod.mk.injEq] at h
            obtain ⟨-, hr⟩ := h
            subst hr
            obtain ⟨pre1, hpre1⟩ := ih _ _ _ heqb
            obtain ⟨t, ht⟩ := unescape_suffix _ _ _ hequ
            refine ⟨c :: t ++ pre1, ?_⟩
            rw [← ht, hpre1]
            simp
      · split at h
        next => exact absurd h (by simp)
        next out2 r2 heqb =>
          simp only [Option.some.injEq, Prod.mk.injEq] at h
          obtain ⟨-, hr⟩ := h
          subst hr
          obtain ⟨pre1, hpre1⟩ := ih _ _ _ heqb
          refine ⟨c :: pre1, ?_⟩
          rw [hpre1]
          rfl

theorem take_one_decomp (u : List Char) (c : Char) (h : u.take 1 = [c]) :
    u = c :: u.drop 1 := by
  cases u with
  | nil => exact absurd h (by simp)
  | cons a t =>
    simp only [List.take_succ_cons, List.take_zero] at h
    cases h
    rfl

theorem parseElems_closes (fuel : Nat) :
    ∀ s es r, parseElems fuel s = some (es, r) → ∃ pre, s = pre ++ ']' :: r := by
  induction fuel with
  | zero =>
    intro s es r h
    exact absurd h (by simp [parseElems])
  | succ fuel ih =>
    intro s es r h
    have hsv := (parse_suffix fuel).1
    rw [parseElems] at h
    split at h
    next => exact absurd h (by simp)
    next j r1 heqv =>
      have hr1 : r1 <:+ s := (hsv _ _ _ heqv).trans (List.dropWhile_suffix _)
      have hdr : (skipWs r1).drop 1 <:+ s :=
        ((List.drop_suffix _ _).trans (List.dropWhile_suffix _)).trans hr1
      split_ifs at h with hc1 hc2
      · split at h
        next es2 r3 heq2 =>
          simp only [Option.some.injEq, Prod.mk.injEq] at h
          obtain ⟨-, hr⟩ := h
          subst hr
          obtain ⟨pre1, hpre1⟩ := ih _ _ _ heq2
          obtain ⟨t, ht⟩ := hdr
          refine ⟨t ++ pre1, ?_⟩
          rw [← ht, hpre1]
          simp
        next => exact absurd h (by simp)
      · simp only [Option.some.injEq, Prod.mk.injEq] at h
        obtain ⟨-, hr⟩ := h
        subst hr
        have hsk : skipWs r1 = ']' :: (skipWs r1).drop 1 := take_one_decomp _ _ hc2
        obtain ⟨t, ht⟩ : skipWs r1 <:+ s := (List.dropWhile_suffix _).trans hr1
        refine ⟨t, ?_⟩
        conv_lhs => rw [← ht, hsk]

theorem parseMembers_closes (fuel : Nat) :
    ∀ s ms r, parseMembers fuel s = some (ms, r) → ∃ pre, s = pre ++ '}' :: r := by
  induction fuel with
  | zero =>
    intro s ms r h
    exact absurd h (by simp [parseMembers])
  | succ fuel ih =>
    intro s ms r h
    have hsv := (parse_suffix fuel).1
    have hss := (parse_suffix fuel).2.2.2
    rw [parseMembers] at h
    split_ifs at h with hq
    · split at h
      next => exact absurd h (by simp)
      next key r1 heqs =>
        have h1 : r1 <:+ s :=
          (hss _ _ _ heqs).trans ((List.drop_suffix _ _).trans (List.dropWhile_suffix _))
        split_ifs at h with hcolon
        · split at h
          next => exact absurd h (by simp)
          next j r3 heqv =>
            have h3 : r3 <:+ s :=
              ((hsv _ _ _ heqv).trans
                ((List.dropWhile_suffix _).trans
                  ((List.drop_suffix _ _).trans (List.dropWhile_suffix _)))).trans h1
            split_ifs at h with hcm hcb
            · split at h
              next ms2 r5 heqm =>
                simp only [Option.some.injEq, Prod.mk.injEq] at h
                obtain ⟨-, hr⟩ := h
                subst hr
                obtain ⟨pre1, hpre1⟩ := ih _ _ _ heqm
                obtain ⟨t, ht⟩ : (skipWs r3).drop 1 <:+ s :=
                  ((List.drop_suffix _ _).trans (List.dropWhile_suffix _)).trans h3
                refine ⟨t ++ pre1, ?_⟩
                rw [← ht, hpre1]
                simp
              next => exact absurd h (by simp)
            · simp only [Option.some.injEq, Prod.mk.injEq] at h
              obtain ⟨-, hr⟩ := h
              subst hr
              have hsk : skipWs r3 = '}' :: (skipWs r3).drop 1 := take_one_decomp _ _ hcb
              obtain ⟨t, ht⟩ : skipWs r3 <:+ s := (List.dropWhile_suffix _).trans h3
              refine ⟨t, ?_⟩
              conv_lhs => rw [← ht, hsk]

theorem parseValue_endChar (fuel : Nat) (s : List Char) (j : Json) (r : List Char)
    (h : parseValue fuel s = some (j, r)) :
    ∃ pre c, s = pre ++ c :: r ∧ valueEndChar c := by
  cases fuel with
  | zero => exact absurd h (by simp [parseValue])
  | succ fuel =>
    cases s with
    | nil => exact absurd h (by simp [parseValue])
    | cons c r0 =>
      rw [parseValue] at h
      split_ifs at h with h1 h2 h3 h4 h5 h6 h7 h8 h9 h10 h11
      · -- null
        simp only [Option.some.injEq, Prod.mk.injEq] at h
        obtain ⟨-, hr⟩ := h
        subst hr
        refine ⟨[c, 'u', 'l'], 'l', ?_, Or.inr (Or.inl rfl)⟩
        have := List.take_append_drop 3 r0
        rw [h2] at this
        rw [← this]
        rfl
      · -- true
        simp only [Option.some.injEq, Prod.mk.injEq] at h
        obtain ⟨-, hr⟩ := h
        subst hr
        refine ⟨[c, 'r', 'u'], 'e', ?_, Or.inr (Or.inr (Or.inl rfl))⟩
        have := List.take_append_drop 3 r0
        rw [h4] at this
        rw [← this]
        rfl
      · -- false
        simp only [Option.some.injEq, Prod.mk.injEq] at h
        obtain ⟨-, hr⟩ := h
        subst hr
        refine ⟨[c, 'a', 'l', 's'], 'e', ?_, Or.inr (Or.inr (Or.inl rfl))⟩
        have := List.take_append_drop 4 r0
        rw [h6] at this
        rw [← this]
        rfl
      · -- string
        split at h
        next cs r2 heq =>
          simp only [Option.some.injEq, Prod.mk.injEq] at h
          obtain ⟨-, hr⟩ := h
          subst hr
          obtain ⟨pre1, hpre1⟩ := parseStringBody_closes fuel _ _ _ heq
          refine ⟨c :: pre1, '"', ?_, Or.inr (Or.inr (Or.inr (Or.inl rfl)))⟩
          rw [hpre1]
          rfl
        next => exact absurd h (by simp)
      · -- empty array
        simp only [Option.some.injEq, Prod.mk.injEq] at h
        obtain ⟨-, hr⟩ := h
        subst hr
        have hsk : skipWs r0 = ']' :: (skipWs r0).drop 1 := take_one_decomp _ _ h9
        obtain ⟨t, ht⟩ : skipWs r0 <:+ r0 := List.dropWhile_suffix _
        refine ⟨c :: t, ']', ?_, Or.inr (Or.inr (Or.inr (Or.inr (Or.inl rfl))))⟩
        conv_lhs => rw [← ht, hsk]
        simp
      · -- nonempty array
        split at h
        next es r2 heq =>
          simp only [Option.some.injEq, Prod.mk.injEq] at h
          obtain ⟨-, hr⟩ := h
          subst hr
          obtain ⟨pre1, hpre1⟩ := parseElems_closes fuel _ _ _ heq
          obtain ⟨t, ht⟩ : skipWs r0 <:+ r0 := List.dropWhile_suffix _
          refine ⟨c :: t ++ pre1, ']', ?_, Or.inr (Or.inr (Or.inr (Or.inr (Or.inl rfl))))⟩
          rw [← ht, hpre1]
          simp
        next => exact absurd h (by simp)
      · -- empty object
        simp only [Option.some.injEq, Prod.mk.injEq] at h
        obtain ⟨-, hr⟩ := h
        subst hr
        have hsk : skipWs r0 = '}' :: (skipWs r0).drop 1 := take_one_decomp _ _ h11
        obtain ⟨t, ht⟩ : skipWs r0 <:+ r0 := List.dropWhile_suffix _
        refine ⟨c :: t, '}', ?_, Or.inr (Or.inr (Or.inr (Or.inr (Or.inr rfl))))⟩
        conv_lhs => rw [← ht, hsk]
        simp
      · -- nonempty object
        split at h
        next ms r2 heq =>
          simp only [Option.some.injEq, Prod.mk.injEq] at h
          obtain ⟨-, hr⟩ := h
          subst hr
          obtain ⟨pre1, hpre1⟩ := parseMembers_closes fuel _ _ _ heq
          obtain ⟨t, ht⟩ : skipWs r0 <:+ r0 := List.dropWhile_suffix _
          refine ⟨c :: t ++ pre1, '}', ?_, Or.inr (Or.inr (Or.inr (Or.inr (Or.inr rfl))))⟩
          rw [← ht, hpre1]
          simp
        next => exact absurd h (by simp)
      · -- number
        split at h
        next l r2 heq =>
          simp only [Option.some.injEq, Prod.mk.injEq] at h
          obtain ⟨-, hr⟩ := h
          subst hr
          obtain ⟨hsplit, y, d, hy, hd⟩ := lexNumber_spec _ _ _ heq
          refine ⟨y, d, ?_, Or.inl hd⟩
          rw [hsplit, hy]
          simp
        next => exact absurd h (by simp)

theorem lexInt_head (s i r : List Char) (h : lexInt s = some (i, r)) :
    ∃ c t, s = c :: t ∧ (c = '0' ∨ c.isDigit = true) := by
  cases s with
  | nil => exact absurd h (by simp [lexInt])
  | cons c cs =>
    rw [lexInt] at h
    split_ifs at h with h0 hd
    · exact ⟨c, cs, rfl, Or.inl h0⟩
    · exact ⟨c, cs, rfl, Or.inr hd⟩

theorem lexNumber_head (s l r : List Char) (h : lexNumber s = some (l, r)) :
    ∃ c t, s = c :: t ∧ (c = '-' ∨ c = '0' ∨ c.isDigit = true) := by
  cases s with
  | nil => exact absurd h (by simp [lexNumber])
  | cons c cs =>
    rw [lexNumber] at h
    split_ifs at h with hm
    · exact ⟨c, cs, rfl, Or.inl hm⟩
    · rw [lexNumBody] at h
      cases hi : lexInt (c :: cs) with
      | none => rw [hi] at h; exact absurd h (by simp)
      | some p =>
        rcases p with ⟨i, r1⟩
        obtain ⟨c2, t2, heq2, hor⟩ := lexInt_head _ _ _ hi
        cases heq2
        exact ⟨c, cs, rfl, Or.inr hor⟩

theorem parseValue_startChar (fuel : Nat) (s : List Char) (j : Json) (r : List Char)
    (h : parseValue fuel s = some (j, r)) : ∃ c t, s = c :: t ∧ c ≠ '`' := by
  cases fuel with
  | zero => exact absurd h (by simp [parseValue])
  | succ fuel =>
    cases s with
    | nil => exact absurd h (by simp [parseValue])
    | cons c r0 =>
      rw [parseValue] at h
      split_ifs at h with h1 h2 h3 h4 h5 h6 h7 h8 h9 h10 h11 <;>
        first
        | (refine ⟨c, r0, rfl, ?_⟩
           first
           | (subst h1; decide)
           | (subst h3; decide)
           | (subst h5; decide)
           | (subst h7; decide)
           | (subst h8; decide)
           | (subst h10; decide))
        | (refine ⟨c, r0, rfl, ?_⟩
           split at h
           case _ heq =>
             obtain ⟨c2, t2, heq2, hor⟩ := lexNumber_head _ _ _ heq
             cases heq2
             rcases hor with hm | h0 | hd
             · subst hm; decide
             · subst h0; decide
             · intro hq
               subst hq
               exact absurd hd (by decide)
           case _ => exact absurd h (by simp))

theorem parseJson_some (s : List Char) (j : Json) (h : parseJson s = some j) :
    ∃ rest, parseValue (2 * (skipWs s).length + 8) (skipWs s) = some (j, rest) ∧
      skipWs rest = [] := by
  rw [parseJson] at h
  cases hp : parseValue (2 * (skipWs s).length + 8) (skipWs s) with
  | none => rw [hp] at h; exact absurd h (by simp)
  | some p =>
    rcases p with ⟨j2, rest⟩
    rw [hp] at h
    simp only [] at h
    split_ifs at h with hr
    simp only [Option.some.injEq] at h
    subst h
    exact ⟨rest, rfl, hr⟩

theorem startsWith_ne_head (a b : Char) (p s : List Char) (hab : b ≠ a) :
    startsWithL (a :: p) (b :: s) = false := by
  unfold startsWithL
  apply decide_eq_false
  intro heq
  rw [List.length_cons, List.take_succ_cons] at heq
  injection heq with hx hy
  exact hab hx

theorem endsWithL_append (a p : List Char) : endsWithL p (a ++ p) = true := by
  apply decide_eq_true
  refine ⟨by simp, ?_⟩
  have hl : (a ++ p).length - p.length = a.length := by simp
  rw [hl]
  exact List.drop_left a p

theorem endsWith_concat_ne (y : List Char) (d : Char) (hd : d ≠ '`') :
    endsWithL ("```".toList) (y ++ [d]) = false := by
  apply decide_eq_false
  rintro ⟨hlen, hdrop⟩
  have hsplit := List.take_append_drop ((y ++ [d]).length - ("```".toList).length) (y ++ [d])
  rw [hdrop] at hsplit
  have h1 : (y ++ [d]).getLast? = some d := List.getLast?_concat y
  have h2 : (y ++ [d]).getLast? = some '`' := by
    rw [← hsplit, List.getLast?_append_of_ne_nil _ (by decide : ("```".toList) ≠ [])]
    rfl
  rw [h1] at h2
  injection h2 with h3
  exact hd h3

theorem cleanFences_of_clean (s : List Char)
    (h1 : startsWithL ("```json".toList) (jsTrim s) = false)
    (h2 : startsWithL ("```".toList) (jsTrim s) = false)
    (h3 : endsWithL ("```".toList) (jsTrim s) = false) :
    cleanFences s = jsTrim s := by
  have h1' : ¬ (startsWithL ("```json".toList) (jsTrim s) = true) := by
    rw [h1]
    exact Bool.false_ne_true
  have h2' : ¬ (startsWithL ("```".toList) (jsTrim s) = true) := by
    rw [h2]
    exact Bool.false_ne_true
  have h3' : ¬ (endsWithL ("```".toList) (jsTrim s) = true) := by
    rw [h3]
    exact Bool.false_ne_true
  simp only [cleanFences]
  rw [if_neg h1', if_neg h2', if_neg h3']

theorem generateObject_unfenced (t : List Char) (j : Json)
    (hv : parseJson (jsTrim t) = some j) : generateObject t = .ok j := by
  obtain ⟨rest, hpv, hrest⟩ := parseJson_some _ _ hv
  rw [skipWs_jsTrim] at hpv
  have hrnil : rest = [] := by
    cases rest with
    | nil => rfl
    | cons d0 r' =>
      exfalso
      obtain ⟨t0, ht0⟩ : (d0 :: r') <:+ jsTrim t := (parse_suffix _).1 _ _ _ hpv
      have hmem : (d0 :: r').getLast (by simp) ∈ d0 :: r' := List.getLast_mem _
      have hws : isJsonWs ((d0 :: r').getLast (by simp)) = true :=
        (List.dropWhile_eq_nil_iff.mp hrest) _ hmem
      have hgl : (jsTrim t).getLast? = some ((d0 :: r').getLast (by simp)) := by
        rw [← ht0, List.getLast?_append_of_ne_nil _ (by simp),
          List.getLast?_eq_getLast _ (by simp)]
      have := jsTrim_getLast t _ hgl
      rw [isJsWs_of_isJsonWs _ hws] at this
      exact Bool.true_eq_false ▸ this
  subst hrnil
  obtain ⟨c0, t0, hshape, hc0⟩ := parseValue_startChar _ _ _ _ hpv
  obtain ⟨pre, cE, hdecomp, hend⟩ := parseValue_endChar _ _ _ _ hpv
  have hcE : cE ≠ '`' := by
    rcases hend with h | h | h | h | h | h
    · intro hx
      subst hx
      exact absurd h (by decide)
    all_goals (subst h; decide)
  have hs1 : startsWithL ("```json".toList) (jsTrim t) = false := by
    rw [hshape]
    exact startsWith_ne_head '`' c0 _ _ hc0
  have hs2 : startsWithL ("```".toList) (jsTrim t) = false := by
    rw [hshape]
    exact startsWith_ne_head '`' c0 _ _ hc0
  have hs3 : endsWithL ("```".toList) (jsTrim t) = false := by
    rw [show jsTrim t = pre ++ [cE] from hdecomp]
    exact endsWith_concat_ne pre cE hcE
  have hcf : cleanFences t = jsTrim t := cleanFences_of_clean t hs1 hs2 hs3
  simp only [generateObject, hcf, jsTrim_idem, hv]

theorem generateObject_fenced (t : List Char) (j : Json)
    (hv : parseJson (jsTrim t) = some j) : generateObject (wrapJsonFence t) = .ok j := by
  have hw : wrapJsonFence t = "```json".toList ++ ('\n' :: (t ++ "\n```".toList)) := rfl
  have hhead : wrapJsonFence t = '`' :: ("``json\n".toList ++ (t ++ "\n```".toList)) := rfl
  have hlast : (wrapJsonFence t).getLast? = some '`' := by
    rw [show wrapJsonFence t = "```json\n".toList ++ (t ++ "\n```".toList) from rfl,
      List.getLast?_append_of_ne_nil _ (by simp),
      List.getLast?_append_of_ne_nil _ (by decide : ("\n```".toList) ≠ [])]
    rfl
  have htrim : jsTrim (wrapJsonFence t) = wrapJsonFence t := by
    rw [hhead]
    refine jsTrim_of_ends '`' _ '`' (by decide) ?_ (by decide)
    rw [← hhead]
    exact hlast
  have hsw : startsWithL ("```json".toList) (wrapJsonFence t) = true := by
    unfold startsWithL
    apply decide_eq_true
    rw [hw]
    exact List.take_left _ _
  have hdrop7 : (wrapJsonFence t).drop 7 = '\n' :: (t ++ "\n```".toList) := rfl
  have hns : startsWithL ("```".toList) ('\n' :: (t ++ "\n```".toList)) = false :=
    startsWith_ne_head '`' '\n' _ _ (by decide)
  have hc1e : ('\n' :: (t ++ "\n```".toList)) = ('\n' :: (t ++ ['\n'])) ++ "```".toList := by
    simp
  have hew : endsWithL ("```".toList) ('\n' :: (t ++ "\n```".toList)) = true := by
    rw [hc1e]
    exact endsWithL_append _ _
  have htk : ('\n' :: (t ++ "\n```".toList)).take
      (('\n' :: (t ++ "\n```".toList)).length - 3) = '\n' :: (t ++ ['\n']) := by
    rw [hc1e]
    have hl : ((('\n' :: (t ++ ['\n'])) ++ "```".toList)).length - 3 =
        ('\n' :: (t ++ ['\n'])).length := by simp
    rw [hl]
    exact List.take_left _ _
  have hns' : ¬ (startsWithL ("```".toList) ('\n' :: (t ++ "\n```".toList)) = true) := by
    rw [hns]
    exact Bool.false_ne_true
  have hcf : cleanFences (wrapJsonFence t) = '\n' :: (t ++ ['\n']) := by
    simp only [cleanFences]
    rw [htrim, if_pos hsw, hdrop7, if_neg hns', if_pos hew]
    exact htk
  have htr : jsTrim ('\n' :: (t ++ ['\n'])) = jsTrim t := by
    rw [jsTrim_cons_ws _ _ (by decide), jsTrim_concat_ws t '\n' (by decide)]
  simp only [generateObject, hcf, htr, hv]

theorem generateObject_invalid (resp : List Char)
    (hbad : parseJson (jsTrim (cleanFences resp)) = none) :
    ∃ e, generateObject resp = .error e ∧ cleanFences resp <:+ e := by
  refine ⟨"Failed to parse JSON response: ".toList ++ cleanFences resp, ?_,
    List.suffix_append _ _⟩
  simp only [generateObject, hbad]

/-- C6 counterexample: a fenced code block with the `js` language tag is
not stripped down to its JSON payload (only the `json` tag and bare
fences are), so the wrapped response fails while the bare JSON parses. -/
theorem generateObject_langtag_cex :
    generateObject ("```js\n\x7b\"a\":1\x7d\n```".toList) =
      .error ("Failed to parse JSON response: js\n\x7b\"a\":1\x7d\n".toList) ∧
    generateObject ("\x7b\"a\":1\x7d".toList) =
      .ok (Json.obj [("a".toList, Json.num "1".toList)]) :=
  ⟨rfl, rfl⟩

/-- C6 amended: a JSON text wrapped in a fenced code block with the
`json` language tag (the tag the stripper recognises) parses to the same
object as the bare text, and any response whose fence-stripped remainder
is not valid JSON fails with a `GatewayError` whose message contains that
remainder. -/
theorem generateObject_spec (t : List Char) (j : Json)
    (hv : parseJson (jsTrim t) = some j) :
    generateObject (wrapJsonFence t) = .ok j ∧ generateObject t = .ok j ∧
    ∀ resp : List Char, parseJson (jsTrim (cleanFences resp)) = none →
      ∃ e, generateObject resp = .error e ∧ cleanFences resp <:+ e :=
  ⟨generateObject_fenced t j hv, generateObject_unfenced t j hv,
    fun resp hbad => generateObject_invalid resp hbad⟩

/-- C6 witness: the object `\x7b"a":1\x7d`, fenced and bare, and a
non-JSON response. -/
theorem generateObject_spec_witness :
    generateObject (wrapJsonFence ("\x7b\"a\":1\x7d".toList)) =
      .ok (Json.obj [("a".toList, Json.num "1".toList)]) ∧
    generateObject ("\x7b\"a\":1\x7d".toList) =
      .ok (Json.obj [("a".toList, Json.num "1".toList)]) ∧
    (∃ e, generateObject ("not json".toList) = .error e ∧
      cleanFences ("not json".toList) <:+ e) := by
  have h := generateObject_spec ("\x7b\"a\":1\x7d".toList)
    (Json.obj [("a".toList, Json.num "1".toList)]) rfl
  exact ⟨h.1, h.2.1, h.2.2 ("not json".toList) rfl⟩

end VercelGateway
